import Mathlib

/-!
Verification of the search-aggregation pipeline of the Hunta backend.

The development shallowly embeds the pipeline's pure core: text
normalisation helpers, result deduplication, relevance scoring, the
sort / threshold / truncate stage, currency normalisation, the query
enhancer's fallback, the retrying page-fetch loop, and the quota-gated
request handler.  Strings are modelled as lists of characters, JS
numbers as rationals, and each effectful boundary (source fetches, the
generative call, per-attempt HTTP outcomes, the quota check) as an
explicit input to the corresponding function.
-/

namespace Hunta

/-- Strings of the modelled program, as lists of characters. -/
abbrev Str := List Char

/-- Model of the JavaScript toLowerCase. -/
def lowerStr (s : Str) : Str := s.map Char.toLower

/-- Model of the JavaScript trim: drop whitespace from both ends. -/
def trimStr (s : Str) : Str :=
  ((s.dropWhile Char.isWhitespace).reverse.dropWhile Char.isWhitespace).reverse

/-- Whether the needle occurs at the head of the haystack. -/
def leadMatch : Str → Str → Bool
  | [], _ => true
  | _ :: _, [] => false
  | a :: as, b :: bs => a == b && leadMatch as bs

/-- Model of the JavaScript String.includes: the needle occurs somewhere
in the haystack. -/
def subMatch (needle : Str) : Str → Bool
  | [] => leadMatch needle []
  | b :: bs => leadMatch needle (b :: bs) || subMatch needle bs

/-- Helper for collapseWs: the flag records whether the previous
character was whitespace. -/
def collapseWsGo : Bool → List Char → List Char
  | _, [] => []
  | prevWs, c :: cs =>
    if c.isWhitespace then
      if prevWs then collapseWsGo true cs else ' ' :: collapseWsGo true cs
    else c :: collapseWsGo false cs

/-- Model of replace of every whitespace run by a single space. -/
def collapseWs (s : Str) : Str := collapseWsGo false s

/-- Split a character list at each single space character, keeping empty
fields at the boundaries. -/
def splitOnSpace : List Char → List Str
  | [] => [[]]
  | c :: cs =>
    match splitOnSpace cs, c == ' ' with
    | r, true => [] :: r
    | [], false => [[c]]
    | t :: rs, false => (c :: t) :: rs

/-- Model of the JavaScript split on a whitespace run: collapsing every
run to one space and then splitting on that space reproduces it,
including the empty boundary fields JavaScript produces. -/
def jsSplitWs (s : Str) : List Str := splitOnSpace (collapseWs s)

/-- Whether the text contains a decimal digit, as the test of the
JavaScript digit character class does. -/
def hasDigit (s : Str) : Bool := s.any Char.isDigit

/-- Characters matched by the number pattern's first bracket: digits and
commas. -/
def isNumC (c : Char) : Bool := c.isDigit || c == ','

/-- First match of the price-number pattern: a maximal run of digits and
commas, optionally followed by a point and exactly two digits. -/
def numberMatch : Str → Option Str
  | [] => none
  | c :: cs =>
    if isNumC c then
      let run := (c :: cs).takeWhile isNumC
      let rest := (c :: cs).dropWhile isNumC
      match rest with
      | '.' :: d1 :: d2 :: _ =>
        if d1.isDigit && d2.isDigit then some (run ++ ['.', d1, d2]) else some run
      | _ => some run
    else numberMatch cs

/-- Whether the price text contains any of the three recognised currency
symbols. -/
def hasAnySymbol (p : Str) : Bool :=
  subMatch ['£'] p || subMatch ['$'] p || subMatch ['€'] p

/-- One marketplace listing, as the pipeline sees it.  Absent optional
fields are the empty string, matching the falsy checks of the source. -/
structure Listing where
  title : Str
  price : Str
  link : Str
  image : Str := []
  source : Str := []
  description : Str := []
  score : ℚ := 0
  deriving Repr, DecidableEq

/-- Output of query expansion. -/
structure EnhancedQuery where
  search_terms : List Str
  deriving Repr, DecidableEq

/-- Whether a listing carries the three required fields, the guard of
deduplicateResults. -/
def validListing (r : Listing) : Bool :=
  !r.title.isEmpty && !r.price.isEmpty && !r.link.isEmpty

/-- Deduplication key of the source: lowercased, trimmed,
whitespace-collapsed title, a hyphen, then the lowercased trimmed
price. -/
def dedupeKey (r : Listing) : Str :=
  collapseWs (trimStr (lowerStr r.title)) ++ '-' :: trimStr (lowerStr r.price)

/-- Key as claim C2 words it: the normalised title directly concatenated
with the normalised price, with no separator. -/
def claimKey (r : Listing) : Str :=
  collapseWs (trimStr (lowerStr r.title)) ++ trimStr (lowerStr r.price)

/-- Recursive worker of deduplicateResults, carrying the set of keys
already seen. -/
def dedupeGo (seen : List Str) : List Listing → List Listing
  | [] => []
  | r :: rs =>
    if validListing r = true then
      if dedupeKey r ∈ seen then dedupeGo seen rs
      else r :: dedupeGo (dedupeKey r :: seen) rs
    else dedupeGo seen rs

/-- Model of deduplicateResults of searchService: drop invalid listings
and keep the first occurrence of each key. -/
def deduplicateResults (results : List Listing) : List Listing := dedupeGo [] results

/-- Specification-style dedupe: keep a listing when it is valid and no
valid listing earlier in the whole input shares its key.  Parametrised
by the key so the same wording serves the claim's key and the code's. -/
def keepsFirstOcc (key : Listing → Str) : List Listing → List Listing → List Listing
  | _, [] => []
  | prior, r :: rs =>
    if validListing r = true ∧ ∀ p ∈ prior, validListing p = true → key p ≠ key r
    then r :: keepsFirstOcc key (prior ++ [r]) rs
    else keepsFirstOcc key (prior ++ [r]) rs

/-- Dedupe described with the code's hyphen-separated key. -/
def dedupeSpec (l : List Listing) : List Listing := keepsFirstOcc dedupeKey [] l

/-- Dedupe described with the claim's separator-free key. -/
def claimDedupe (l : List Listing) : List Listing := keepsFirstOcc claimKey [] l

/-- Clamp of the score into the unit interval. -/
def clamp01 (q : ℚ) : ℚ := min 1 (max 0 q)

/-- Model of rounding to two decimal places. -/
def round2 (q : ℚ) : ℚ := ((round (q * 100) : ℤ) : ℚ) / 100

/-- Source identifier that receives the primary-marketplace bonus in
scoreResults. -/
def primarySource : Str := ['e', 'b', 'a', 'y']

/-- Conditional score increment. -/
def addIf (c : Bool) (amount acc : ℚ) : ℚ := if c then acc + amount else acc

/-- One term's contribution to the running score: the title bump
followed by the description bump, as the forEach body performs them. -/
def scoreStep (a b : ℚ) (title desc : Str) (acc : ℚ) (t : Str) : ℚ :=
  addIf (subMatch t desc) b (addIf (subMatch t title) a acc)

/-- One listing's score, translated from scoreResults: fold the query
tokens and the enhanced phrases over the running score, then apply the
full-term, image, short-title and primary-source adjustments, clamp and
round. -/
def scoreListing (queryLower : Str) (queryTerms enhancedTerms : List Str) (r : Listing) : ℚ :=
  let title := lowerStr r.title
  let desc := lowerStr r.description
  let s2 := enhancedTerms.foldl (scoreStep (1 / 5) (1 / 20) title desc)
    (queryTerms.foldl (scoreStep (3 / 10) (1 / 10) title desc) (1 / 20))
  let s3 := if subMatch queryLower title then s2 + 2 / 5 else s2
  let s4 := if r.image.isEmpty then s3 else s3 + 1 / 20
  let s5 := if r.title.length < 20 then s4 - 1 / 5 else s4
  let s6 := if r.source = primarySource then s5 + 1 / 10 else s5
  round2 (clamp01 s6)

/-- Model of scoreResults: tokenise the lowercased original query,
lowercase the enhanced phrases, and score every listing. -/
def scoreResults (results : List Listing) (originalQuery : Str) (enhanced : EnhancedQuery) :
    List Listing :=
  let queryTerms := jsSplitWs (lowerStr originalQuery)
  let enhancedTerms := enhanced.search_terms.map lowerStr
  results.map (fun r =>
    { r with score := scoreListing (lowerStr originalQuery) queryTerms enhancedTerms r })

/-- Number of terms of the list occurring in the haystack, counted with
multiplicity. -/
def countSub (terms : List Str) (hay : Str) : ℚ :=
  (terms.countP (fun t => subMatch t hay) : ℚ)

/-- Score formula as claim C1 words it: base 0.05, weighted counts of
query tokens and enhanced phrases in title and description, the four
bonuses and the short-title penalty, clamped and rounded. -/
def scoreFormula (originalQuery : Str) (enhanced : EnhancedQuery) (r : Listing) : ℚ :=
  let title := lowerStr r.title
  let desc := lowerStr r.description
  let tokens := jsSplitWs (lowerStr originalQuery)
  let phrases := enhanced.search_terms.map lowerStr
  round2 (clamp01 (1 / 20
    + 3 / 10 * countSub tokens title + 1 / 10 * countSub tokens desc
    + 1 / 5 * countSub phrases title + 1 / 20 * countSub phrases desc
    + (if subMatch (lowerStr originalQuery) title then 2 / 5 else 0)
    + (if r.image.isEmpty then 0 else 1 / 20)
    + (if r.title.length < 20 then -(1 / 5) else 0)
    + (if r.source = primarySource then 1 / 10 else 0)))

/-- Ordering used by the result sort: the left listing scores at least
the right one. -/
def scoreGe (a b : Listing) : Prop := b.score ≤ a.score

instance : DecidableRel scoreGe := fun a b => inferInstanceAs (Decidable (b.score ≤ a.score))

instance : IsTotal Listing scoreGe := ⟨fun a b => le_total b.score a.score⟩

instance : IsTrans Listing scoreGe := ⟨fun _ _ _ h1 h2 => le_trans h2 h1⟩

/-- Sort of the scored listings by non-increasing score. -/
def sortScoreDesc (l : List Listing) : List Listing := l.insertionSort scoreGe

/-- Symbol table of convertCurrency. -/
def currencySymbols (tc : Str) : Option Str :=
  if tc = ['G', 'B', 'P'] then some ['£']
  else if tc = ['U', 'S', 'D'] then some ['$']
  else if tc = ['E', 'U', 'R'] then some ['€']
  else none

/-- Symbol actually used: the table entry, or the empty string on a
lookup miss. -/
def currencySymbol (tc : Str) : Str := (currencySymbols tc).getD []

/-- Filter of convertCurrency: GBP keeps explicit pound prices and
digit-bearing prices with neither dollar nor euro sign; every other
target keeps prices containing its symbol. -/
def keepForCurrency (tc : Str) (symbol : Str) (r : Listing) : Bool :=
  if tc = ['G', 'B', 'P'] then
    subMatch ['£'] r.price ||
      (!subMatch ['$'] r.price && !subMatch ['€'] r.price && hasDigit r.price)
  else subMatch symbol r.price

/-- Model of ensureCurrencyFormat: empty prices and prices already
containing the symbol pass through; otherwise the symbol is prepended
to the first number match when no recognised symbol is present. -/
def ensureCurrencyFormat (price : Str) (symbol : Str) : Str :=
  if price.isEmpty then price
  else if subMatch symbol price then price
  else
    match numberMatch price with
    | some n => if hasAnySymbol price then price else symbol ++ n
    | none => price

/-- Model of convertCurrency: filter by target currency, then normalise
each kept price. -/
def convertCurrency (results : List Listing) (targetCurrency : Str) : List Listing :=
  (results.filter (keepForCurrency targetCurrency (currencySymbol targetCurrency))).map
    (fun r => { r with price := ensureCurrencyFormat r.price (currencySymbol targetCurrency) })

/-- Keep condition as claim C4 words it: for GBP a pound price, or a
price with no recognisable symbol at all that contains a digit; for the
other recognised targets a price containing the target symbol. -/
def currencyKeepSpec (tc : Str) (r : Listing) : Bool :=
  if tc = ['G', 'B', 'P'] then
    subMatch ['£'] r.price ||
      (!subMatch ['£'] r.price && !subMatch ['$'] r.price && !subMatch ['€'] r.price &&
        hasDigit r.price)
  else subMatch (currencySymbol tc) r.price

/-- Price rewrite as claim C4 words it: when the kept price lacks the
target symbol but contains a bare number, the symbol is prefixed onto
the numeric substring; otherwise the text is unchanged. -/
def currencyFormatSpec (symbol : Str) (p : Str) : Str :=
  if subMatch symbol p = false then
    match numberMatch p with
    | some n => symbol ++ n
    | none => p
  else p

/-- Result-processing stage of performSearch, from the collected raw
results to the response: dedupe, score, sort, threshold at 0.3, keep 30,
normalise currency; an empty collection short-circuits to the empty
list. -/
def performSearchCore (allResults : List Listing) (searchTerm : Str) (enhanced : EnhancedQuery)
    (currency : Str) : List Listing :=
  if allResults.isEmpty then []
  else
    convertCurrency
      (((sortScoreDesc (scoreResults (deduplicateResults allResults) searchTerm enhanced)).filter
          (fun r => decide ((3 : ℚ) / 10 ≤ r.score))).take 30)
      currency

/-- Per-source absorption of performSearch: a failed fetch contributes
the empty result list. -/
def absorb (x : Except Str (List Listing)) : List Listing :=
  match x with
  | Except.ok rs => rs
  | Except.error _ => []

/-- Results one phrase contributes: every source is invoked and its
absorbed results are concatenated in source order. -/
def gatherForTerm (sources : List (Str → Except Str (List Listing))) (t : Str) : List Listing :=
  ((sources.map (fun f => absorb (f t))).flatten)

/-- Results across all phrases, concatenated in phrase order. -/
def gatherResults (sources : List (Str → Except Str (List Listing))) (terms : List Str) :
    List Listing :=
  terms.foldl (fun acc t => acc ++ gatherForTerm sources t) []

/-- Model of performSearch: the original term leads the enhanced
phrases, at most five phrases are fetched, and the processed results
are returned; no branch produces an error. -/
def performSearchModel (sources : List (Str → Except Str (List Listing))) (searchTerm : Str)
    (enhanced : EnhancedQuery) (currency : Str) : Except Str (List Listing) :=
  Except.ok (performSearchCore
    (gatherResults sources ((searchTerm :: enhanced.search_terms).take 5))
    searchTerm enhanced currency)

/-- Outcome of the generative call behind enhanceSearchQuery. -/
inductive GenOutcome
  | netError (msg : Str)
  | badJson (raw : Str)
  | parsed (search_terms : Option (List Str))
  deriving Repr, DecidableEq

/-- Whether the generative call failed to produce a usable result. -/
def genFailed : GenOutcome → Bool
  | GenOutcome.parsed (some _) => false
  | _ => true

/-- Model of getFallbackEnhancement: the deterministic fallback phrase
list. -/
def getFallbackEnhancement (query : Str) : EnhancedQuery :=
  ⟨[query, query ++ (' ' :: ['r', 'a', 'r', 'e']), ['u', 's', 'e', 'd', ' '] ++ query]⟩

/-- Model of enhanceSearchQuery: a network error, an unparsable body and
a parsed value without a search_terms array all resolve to the
fallback; a usable parsed value is returned as given. -/
def enhanceSearchQuery (query : Str) (outcome : GenOutcome) : EnhancedQuery :=
  match outcome with
  | GenOutcome.netError _ => getFallbackEnhancement query
  | GenOutcome.badJson _ => getFallbackEnhancement query
  | GenOutcome.parsed none => getFallbackEnhancement query
  | GenOutcome.parsed (some ts) => ⟨ts⟩

/-- Outcome of one attempt of the page-fetch primitive. -/
inductive AttemptResult
  | success (content : Str)
  | rateLimited
  | otherFailure
  deriving Repr, DecidableEq

/-- Whether an attempt failed. -/
def isFailAttempt : AttemptResult → Bool
  | AttemptResult.success _ => false
  | _ => true

/-- Wait the code performs after the given failed attempt: exponential
with jitter when rate limited, linear otherwise. -/
def waitForAttempt (jitterOf : Nat → Nat) (o : AttemptResult) (attempt : Nat) : Nat :=
  match o with
  | AttemptResult.rateLimited => 10000 * 2 ^ (attempt - 1) + jitterOf attempt
  | _ => 1000 * attempt

/-- Retry loop of fetchPage.  Attempts are numbered from one; the fuel
counts the loop iterations still permitted.  The returned list records
every wait performed, and a none result models the propagated error. -/
def fetchPageGo (outcomes : Nat → AttemptResult) (jitterOf : Nat → Nat) (maxRetries : Nat) :
    Nat → Nat → Option Str × List Nat
  | _, 0 => (none, [])
  | attempt, fuel + 1 =>
    match outcomes attempt with
    | AttemptResult.success content => (some content, [])
    | AttemptResult.rateLimited =>
      if attempt > maxRetries then (none, [])
      else
        let w := 10000 * 2 ^ (attempt - 1) + jitterOf attempt
        let rest := fetchPageGo outcomes jitterOf maxRetries (attempt + 1) fuel
        (rest.1, w :: rest.2)
    | AttemptResult.otherFailure =>
      if attempt > maxRetries then (none, [])
      else
        let rest := fetchPageGo outcomes jitterOf maxRetries (attempt + 1) fuel
        (rest.1, 1000 * attempt :: rest.2)

/-- Default retry budget of fetchPage. -/
def defaultMaxRetries : Nat := 5

/-- Model of fetchPage: run the loop from attempt one with the loop
bound of the source. -/
def fetchPage (outcomes : Nat → AttemptResult) (jitterOf : Nat → Nat) (maxRetries : Nat) :
    Option Str × List Nat :=
  fetchPageGo outcomes jitterOf maxRetries 1 (maxRetries + 1)

/-- Result of the quota check, as the handler consumes it. -/
structure RateLimitResult where
  allowed : Bool
  remaining : Nat
  resetTime : Nat
  deriving Repr, DecidableEq

/-- Response of the search endpoint. -/
inductive SearchResponse
  | badRequest
  | limitExceeded (resetTime : Nat)
  | results (listings : List Listing) (remaining : Nat) (resetTime : Nat)
  | serverError (msg : Str)
  deriving Repr, DecidableEq

/-- Model of the search request handler; the boolean of the pair records
whether the aggregator was invoked. -/
def handleSearch (validTerm : Bool) (rl : RateLimitResult)
    (doSearch : Unit → Except Str (List Listing)) : SearchResponse × Bool :=
  if validTerm = false then (SearchResponse.badRequest, false)
  else if rl.allowed = false then (SearchResponse.limitExceeded rl.resetTime, false)
  else
    match doSearch () with
    | Except.ok listings => (SearchResponse.results listings rl.remaining rl.resetTime, true)
    | Except.error e => (SearchResponse.serverError e, true)

/-- Needle of the empty string occurs in every haystack, as the
JavaScript includes does. -/
theorem subMatch_nil (p : Str) : subMatch [] p = true := by
  cases p <;> simp [subMatch, leadMatch]

/-- A nonempty needle never occurs in the empty haystack. -/
theorem subMatch_cons_nil (c : Char) (cs : Str) : subMatch (c :: cs) [] = false := rfl

/-- Every listing surviving dedupeGo is valid. -/
theorem dedupeGo_valid (l : List Listing) :
    ∀ seen, ∀ r ∈ dedupeGo seen l, validListing r = true := by
  induction l with
  | nil => intro seen r hr; simp [dedupeGo] at hr
  | cons a l ih =>
    intro seen r hr
    by_cases hv : validListing a = true
    · by_cases hs : dedupeKey a ∈ seen
      · rw [dedupeGo, if_pos hv, if_pos hs] at hr
        exact ih seen r hr
      · rw [dedupeGo, if_pos hv, if_neg hs] at hr
        rcases List.mem_cons.mp hr with h | h
        · exact h ▸ hv
        · exact ih _ r h
    · rw [dedupeGo, if_neg hv] at hr
      exact ih seen r hr

/-- No listing surviving dedupeGo has a key among those already seen. -/
theorem dedupeGo_key_notin (l : List Listing) :
    ∀ seen, ∀ r ∈ dedupeGo seen l, dedupeKey r ∉ seen := by
  induction l with
  | nil => intro seen r hr; simp [dedupeGo] at hr
  | cons a l ih =>
    intro seen r hr
    by_cases hv : validListing a = true
    · by_cases hs : dedupeKey a ∈ seen
      · rw [dedupeGo, if_pos hv, if_pos hs] at hr
        exact ih seen r hr
      · rw [dedupeGo, if_pos hv, if_neg hs] at hr
        rcases List.mem_cons.mp hr with h | h
        · exact h ▸ hs
        · intro hmem
          exact ih _ r h (List.mem_cons_of_mem _ hmem)
    · rw [dedupeGo, if_neg hv] at hr
      exact ih seen r hr

/-- Keys of the dedupeGo output are pairwise distinct. -/
theorem dedupeGo_pairwise (l : List Listing) :
    ∀ seen, List.Pairwise (fun a b => dedupeKey a ≠ dedupeKey b) (dedupeGo seen l) := by
  induction l with
  | nil => intro seen; simp [dedupeGo]
  | cons a l ih =>
    intro seen
    by_cases hv : validListing a = true
    · by_cases hs : dedupeKey a ∈ seen
      · rw [dedupeGo, if_pos hv, if_pos hs]; exact ih seen
      · rw [dedupeGo, if_pos hv, if_neg hs]
        refine List.Pairwise.cons ?_ (ih _)
        intro b hb heq
        exact dedupeGo_key_notin l _ b hb (heq ▸ List.mem_cons_self _ _)
    · rw [dedupeGo, if_neg hv]; exact ih seen

/-- Lists of valid listings with fresh, pairwise-distinct keys pass
through dedupeGo unchanged. -/
theorem dedupeGo_fixed (l : List Listing) :
    ∀ seen, (∀ r ∈ l, validListing r = true) → (∀ r ∈ l, dedupeKey r ∉ seen) →
    List.Pairwise (fun a b => dedupeKey a ≠ dedupeKey b) l → dedupeGo seen l = l := by
  induction l with
  | nil => intro seen _ _ _; rfl
  | cons a l ih =>
    intro seen hval hfresh hpw
    have hv : validListing a = true := hval a (List.mem_cons_self _ _)
    have hs : dedupeKey a ∉ seen := hfresh a (List.mem_cons_self _ _)
    rw [dedupeGo, if_pos hv, if_neg hs]
    congr 1
    refine ih _ (fun r hr => hval r (List.mem_cons_of_mem _ hr)) ?_ hpw.of_cons
    intro r hr hmem
    rcases List.mem_cons.mp hmem with h | h
    · exact (List.pairwise_cons.mp hpw).1 r hr h.symm
    · exact hfresh r (List.mem_cons_of_mem _ hr) h

/-- Claim C9: deduplication is idempotent. -/
theorem claim_C9 (l : List Listing) :
    deduplicateResults (deduplicateResults l) = deduplicateResults l :=
  dedupeGo_fixed (dedupeGo [] l) [] (dedupeGo_valid l [])
    (fun r _ => List.not_mem_nil (dedupeKey r)) (dedupeGo_pairwise l [])

/-- Imperative dedupe equals the first-occurrence description whenever
the seen set holds exactly the keys of the valid prior listings. -/
theorem dedupeGo_eq_keepsFirstOcc (l : List Listing) :
    ∀ (seen : List Str) (prior : List Listing),
    (∀ k, k ∈ seen ↔ ∃ p, p ∈ prior ∧ validListing p = true ∧ dedupeKey p = k) →
    dedupeGo seen l = keepsFirstOcc dedupeKey prior l := by
  induction l with
  | nil => intro seen prior _; rfl
  | cons r rs ih =>
    intro seen prior hinv
    by_cases hv : validListing r = true
    · by_cases hs : dedupeKey r ∈ seen
      · have hc : ¬(validListing r = true ∧
            ∀ p ∈ prior, validListing p = true → dedupeKey p ≠ dedupeKey r) := by
          rintro ⟨-, hall⟩
          obtain ⟨p, hp, hpv, hpk⟩ := (hinv (dedupeKey r)).mp hs
          exact hall p hp hpv hpk
        rw [dedupeGo, if_pos hv, if_pos hs, keepsFirstOcc, if_neg hc]
        refine ih seen (prior ++ [r]) ?_
        intro k
        rw [hinv k]
        constructor
        · rintro ⟨p, hp, h1, h2⟩
          exact ⟨p, List.mem_append_left _ hp, h1, h2⟩
        · rintro ⟨p, hp, h1, h2⟩
          rcases List.mem_append.mp hp with h | h
          · exact ⟨p, h, h1, h2⟩
          · have hpr : p = r := by simpa using h
            subst hpr
            exact (hinv k).mp (h2 ▸ hs)
      · have hc : validListing r = true ∧
            ∀ p ∈ prior, validListing p = true → dedupeKey p ≠ dedupeKey r := by
          refine ⟨hv, fun p hp hpv heq => hs ?_⟩
          exact (hinv (dedupeKey r)).mpr ⟨p, hp, hpv, heq⟩
        rw [dedupeGo, if_pos hv, if_neg hs, keepsFirstOcc, if_pos hc]
        congr 1
        refine ih (dedupeKey r :: seen) (prior ++ [r]) ?_
        intro k
        constructor
        · intro hk
          rcases List.mem_cons.mp hk with h | h
          · exact ⟨r, List.mem_append_right _ (List.mem_singleton_self r), hv, h.symm⟩
          · obtain ⟨p, hp, h1, h2⟩ := (hinv k).mp h
            exact ⟨p, List.mem_append_left _ hp, h1, h2⟩
        · rintro ⟨p, hp, h1, h2⟩
          rcases List.mem_append.mp hp with h | h
          · exact List.mem_cons_of_mem _ ((hinv k).mpr ⟨p, h, h1, h2⟩)
          · have hpr : p = r := by simpa using h
            subst hpr
            exact h2 ▸ List.mem_cons_self _ _
    · have hc : ¬(validListing r = true ∧
          ∀ p ∈ prior, validListing p = true → dedupeKey p ≠ dedupeKey r) := by
        rintro ⟨h1, -⟩
        exact hv h1
      rw [dedupeGo, if_neg hv, keepsFirstOcc, if_neg hc]
      refine ih seen (prior ++ [r]) ?_
      intro k
      rw [hinv k]
      constructor
      · rintro ⟨p, hp, h1, h2⟩
        exact ⟨p, List.mem_append_left _ hp, h1, h2⟩
      · rintro ⟨p, hp, h1, h2⟩
        rcases List.mem_append.mp hp with h | h
        · exact ⟨p, h, h1, h2⟩
        · have hpr : p = r := by simpa using h
          subst hpr
          exact absurd h1 hv

/-- Claim C2, counterexample to the stated key: with the separator-free
concatenation key the two listings below have distinct keys, so the
claim keeps both, but the code's hyphen-joined key collides and the
second listing is dropped. -/
theorem claim_C2_counterexample :
    deduplicateResults
        [⟨['a'], ['b', '-', 'c'], ['l', '1'], [], [], [], 0⟩,
         ⟨['a', '-', 'b'], ['c'], ['l', '2'], [], [], [], 0⟩] ≠
      claimDedupe
        [⟨['a'], ['b', '-', 'c'], ['l', '1'], [], [], [], 0⟩,
         ⟨['a', '-', 'b'], ['c'], ['l', '2'], [], [], [], 0⟩] := by
  decide

/-- Claim C2 as amended: the key joins the normalised title and the
normalised price with a hyphen separator; with that key the output
keeps exactly the first occurrence of each key among the listings with
all required fields, and every survivor has nonempty title, price and
link. -/
theorem claim_C2 (l : List Listing) :
    deduplicateResults l = dedupeSpec l ∧
    ∀ r ∈ deduplicateResults l, r.title ≠ [] ∧ r.price ≠ [] ∧ r.link ≠ [] := by
  constructor
  · exact dedupeGo_eq_keepsFirstOcc l [] [] (by simp)
  · intro r hr
    have hv := dedupeGo_valid l [] r hr
    simp only [validListing, Bool.and_eq_true, Bool.not_eq_true', List.isEmpty_eq_false] at hv
    exact ⟨hv.1.1, hv.1.2, hv.2⟩

/-- Witness for claim C2 at a concrete one-listing input. -/
theorem claim_C2_witness :
    deduplicateResults [⟨['a'], ['b'], ['l'], [], [], [], 0⟩] =
      dedupeSpec [⟨['a'], ['b'], ['l'], [], [], [], 0⟩] ∧
    ∀ r ∈ deduplicateResults [⟨['a'], ['b'], ['l'], [], [], [], 0⟩],
      r.title ≠ [] ∧ r.price ≠ [] ∧ r.link ≠ [] :=
  claim_C2 [⟨['a'], ['b'], ['l'], [], [], [], 0⟩]

/-- Witness for claim C9 at a concrete one-listing input. -/
theorem claim_C9_witness :
    deduplicateResults (deduplicateResults [⟨['a'], ['b'], ['l'], [], [], [], 0⟩]) =
      deduplicateResults [⟨['a'], ['b'], ['l'], [], [], [], 0⟩] :=
  claim_C9 [⟨['a'], ['b'], ['l'], [], [], [], 0⟩]

/-- Claim C6: every failing outcome of the generative call resolves to
the deterministic fallback phrase list, which is nonempty. -/
theorem claim_C6 (query : Str) (outcome : GenOutcome) (h : genFailed outcome = true) :
    enhanceSearchQuery query outcome = getFallbackEnhancement query ∧
    (enhanceSearchQuery query outcome).search_terms =
      [query, query ++ (' ' :: ['r', 'a', 'r', 'e']), ['u', 's', 'e', 'd', ' '] ++ query] ∧
    (enhanceSearchQuery query outcome).search_terms ≠ [] := by
  cases outcome with
  | netError m => exact ⟨rfl, rfl, by simp [enhanceSearchQuery, getFallbackEnhancement]⟩
  | badJson m => exact ⟨rfl, rfl, by simp [enhanceSearchQuery, getFallbackEnhancement]⟩
  | parsed o =>
    cases o with
    | none => exact ⟨rfl, rfl, by simp [enhanceSearchQuery, getFallbackEnhancement]⟩
    | some ts => simp [genFailed] at h

/-- Witness for claim C6 at a concrete query and a network failure. -/
theorem claim_C6_witness :
    enhanceSearchQuery ['x'] (GenOutcome.netError []) = getFallbackEnhancement ['x'] ∧
    (enhanceSearchQuery ['x'] (GenOutcome.netError [])).search_terms =
      [['x'], ['x'] ++ (' ' :: ['r', 'a', 'r', 'e']), ['u', 's', 'e', 'd', ' '] ++ ['x']] ∧
    (enhanceSearchQuery ['x'] (GenOutcome.netError [])).search_terms ≠ [] :=
  claim_C6 ['x'] (GenOutcome.netError []) rfl

/-- Claim C8: a valid request whose quota check is not allowed receives
the limit-exceeded response carrying the reset time, and the aggregator
is never invoked. -/
theorem claim_C8 (rl : RateLimitResult) (doSearch : Unit → Except Str (List Listing))
    (h : rl.allowed = false) :
    handleSearch true rl doSearch = (SearchResponse.limitExceeded rl.resetTime, false) := by
  simp [handleSearch, h]

/-- Witness for claim C8 at a concrete exhausted quota record. -/
theorem claim_C8_witness :
    handleSearch true ⟨false, 0, 99⟩ (fun _ => Except.ok []) =
      (SearchResponse.limitExceeded 99, false) :=
  claim_C8 ⟨false, 0, 99⟩ (fun _ => Except.ok []) rfl

/-- Unrecognised targets keep the whole price text: the symbol is empty
and ensureCurrencyFormat returns the price unchanged. -/
theorem ensureCurrencyFormat_nil (p : Str) : ensureCurrencyFormat p [] = p := by
  unfold ensureCurrencyFormat
  by_cases hp : p.isEmpty <;> simp [hp, subMatch_nil]

/-- Claim C10: with a target outside the symbol table, the filter keeps
every listing and every price is left untouched. -/
theorem claim_C10 (results : List Listing) (tc : Str) (h : currencySymbols tc = none) :
    convertCurrency results tc = results := by
  have hG : tc ≠ ['G', 'B', 'P'] := by
    intro e
    rw [e] at h
    simp [currencySymbols] at h
  have hsym : currencySymbol tc = [] := by rw [currencySymbol, h]; rfl
  unfold convertCurrency
  rw [hsym]
  rw [List.filter_eq_self.mpr (fun a _ => by simp [keepForCurrency, hG, subMatch_nil])]
  have hmap : ∀ r ∈ results,
      ({ r with price := ensureCurrencyFormat r.price [] } : Listing) = r := by
    intro r _
    rw [ensureCurrencyFormat_nil]
  rw [List.map_congr_left hmap]
  exact List.map_id results

/-- Witness for claim C10 at a concrete listing and the target JPY. -/
theorem claim_C10_witness :
    convertCurrency [⟨['t'], ['5'], ['l'], [], [], [], 0⟩] ['J', 'P', 'Y'] =
      [⟨['t'], ['5'], ['l'], [], [], [], 0⟩] :=
  claim_C10 [⟨['t'], ['5'], ['l'], [], [], [], 0⟩] ['J', 'P', 'Y'] rfl

/-- A phrase contributes the same results when a source whose fetch
errors on it is removed. -/
theorem gatherForTerm_drop_err (s1 s2 : List (Str → Except Str (List Listing)))
    (f : Str → Except Str (List Listing)) (t : Str) (h : absorb (f t) = []) :
    gatherForTerm (s1 ++ f :: s2) t = gatherForTerm (s1 ++ s2) t := by
  simp [gatherForTerm, h]

/-- Folding the phrase list is stable under a pointwise-equal gather. -/
theorem gatherFold_congr (S1 S2 : List (Str → Except Str (List Listing))) :
    ∀ (terms : List Str) (acc : List Listing),
    (∀ t ∈ terms, gatherForTerm S1 t = gatherForTerm S2 t) →
    terms.foldl (fun acc t => acc ++ gatherForTerm S1 t) acc =
      terms.foldl (fun acc t => acc ++ gatherForTerm S2 t) acc := by
  intro terms
  induction terms with
  | nil => intro acc _; rfl
  | cons t ts ih =>
    intro acc h
    simp only [List.foldl_cons]
    rw [h t (List.mem_cons_self _ _)]
    exact ih _ (fun u hu => h u (List.mem_cons_of_mem _ hu))

/-- A phrase whose every source is absorbed to nothing contributes
nothing. -/
theorem gatherForTerm_all_nil (sources : List (Str → Except Str (List Listing))) (t : Str)
    (h : ∀ f ∈ sources, absorb (f t) = []) : gatherForTerm sources t = [] := by
  induction sources with
  | nil => rfl
  | cons f fs ih =>
    simp only [gatherForTerm, List.map_cons, List.flatten_cons]
    rw [h f (List.mem_cons_self _ _), List.nil_append]
    exact ih (fun g hg => h g (List.mem_cons_of_mem _ hg))

/-- Folding phrases that each contribute nothing leaves the accumulator
unchanged. -/
theorem gatherFold_nil (sources : List (Str → Except Str (List Listing))) :
    ∀ (terms : List Str) (acc : List Listing),
    (∀ t ∈ terms, gatherForTerm sources t = []) →
    terms.foldl (fun acc t => acc ++ gatherForTerm sources t) acc = acc := by
  intro terms
  induction terms with
  | nil => intro acc _; rfl
  | cons t ts ih =>
    intro acc h
    simp only [List.foldl_cons]
    rw [h t (List.mem_cons_self _ _), List.append_nil]
    exact ih _ (fun u hu => h u (List.mem_cons_of_mem _ hu))

/-- Claim C5: a source whose fetch errors for every phrase contributes
nothing and blocks nothing; when every source is absorbed to zero
results for every phrase the search returns the empty list; and no run
of the aggregation produces an error. -/
theorem claim_C5 :
    (∀ (s1 s2 : List (Str → Except Str (List Listing)))
        (f : Str → Except Str (List Listing)) (terms : List Str),
      (∀ t ∈ terms, ∃ e, f t = Except.error e) →
      gatherResults (s1 ++ f :: s2) terms = gatherResults (s1 ++ s2) terms) ∧
    (∀ (sources : List (Str → Except Str (List Listing))) (q : Str)
        (enhanced : EnhancedQuery) (currency : Str),
      (∀ f ∈ sources, ∀ t : Str, absorb (f t) = []) →
      performSearchModel sources q enhanced currency = Except.ok []) ∧
    (∀ (sources : List (Str → Except Str (List Listing))) (q : Str)
        (enhanced : EnhancedQuery) (currency : Str),
      ∃ out, performSearchModel sources q enhanced currency = Except.ok out) := by
  refine ⟨?_, ?_, ?_⟩
  · intro s1 s2 f terms h
    unfold gatherResults
    refine gatherFold_congr _ _ terms [] (fun t ht => ?_)
    obtain ⟨e, he⟩ := h t ht
    exact gatherForTerm_drop_err s1 s2 f t (by rw [he]; rfl)
  · intro sources q enhanced currency h
    have hg : gatherResults sources ((q :: enhanced.search_terms).take 5) = [] := by
      unfold gatherResults
      exact gatherFold_nil sources _ []
        (fun t _ => gatherForTerm_all_nil sources t (fun f hf => h f hf t))
    unfold performSearchModel
    rw [hg]
    rfl
  · intro sources q enhanced currency
    exact ⟨_, rfl⟩

/-- Witness for claim C5: one always-failing source contributes nothing
next to no other sources, and a run over it returns the empty result. -/
theorem claim_C5_witness :
    gatherResults ([] ++ (fun _ => Except.error ['e']) :: []) [['x']] =
      gatherResults ([] ++ []) [['x']] ∧
    performSearchModel [fun _ => Except.error ['e']] ['x'] ⟨[]⟩ ['G', 'B', 'P'] =
      Except.ok [] :=
  ⟨claim_C5.1 [] [] (fun _ => Except.error ['e']) [['x']] (fun _ _ => ⟨['e'], rfl⟩),
   claim_C5.2.1 [fun _ => Except.error ['e']] ['x'] ⟨[]⟩ ['G', 'B', 'P']
     (fun f hf t => by
       rw [List.mem_singleton] at hf
       subst hf
       rfl)⟩

/-- Run of the retry loop that reaches a first success: every earlier
attempt waits its backoff amount and the content is returned. -/
theorem fetchPageGo_success (outcomes : Nat → AttemptResult) (jitterOf : Nat → Nat)
    (maxRetries n : Nat) (content : Str) :
    ∀ (fuel a : Nat), a + fuel = maxRetries + 2 → 1 ≤ a → a ≤ n → n ≤ maxRetries + 1 →
    (∀ b, a ≤ b → b < n → isFailAttempt (outcomes b) = true) →
    outcomes n = AttemptResult.success content →
    fetchPageGo outcomes jitterOf maxRetries a fuel =
      (some content,
        (List.range' a (n - a)).map (fun b => waitForAttempt jitterOf (outcomes b) b)) := by
  intro fuel
  induction fuel with
  | zero => intro a hfuel h1 han hnm _ _; omega
  | succ fuel ih =>
    intro a hfuel h1 han hnm hall houtn
    rcases eq_or_lt_of_le han with heq | hlt
    · subst heq
      rw [fetchPageGo, houtn, Nat.sub_self]
      rfl
    · have hfail := hall a le_rfl hlt
      have hnotover : ¬a > maxRetries := by omega
      have hcount : n - a = (n - (a + 1)) + 1 := by omega
      cases houta : outcomes a with
      | success c => rw [houta] at hfail; simp [isFailAttempt] at hfail
      | rateLimited =>
        simp only [fetchPageGo, houta]
        rw [if_neg hnotover,
          ih (a + 1) (by omega) (by omega) hlt hnm
            (fun b hb1 hb2 => hall b (by omega) hb2) houtn,
          hcount, List.range'_succ, List.map_cons, houta]
        rfl
      | otherFailure =>
        simp only [fetchPageGo, houta]
        rw [if_neg hnotover,
          ih (a + 1) (by omega) (by omega) hlt hnm
            (fun b hb1 hb2 => hall b (by omega) hb2) houtn,
          hcount, List.range'_succ, List.map_cons, houta]
        rfl

/-- Run of the retry loop in which every permitted attempt fails: the
error propagates after the waits of all but the final attempt. -/
theorem fetchPageGo_allfail (outcomes : Nat → AttemptResult) (jitterOf : Nat → Nat)
    (maxRetries : Nat) :
    ∀ (fuel a : Nat), a + fuel = maxRetries + 2 → 1 ≤ a →
    (∀ b, a ≤ b → b ≤ maxRetries + 1 → isFailAttempt (outcomes b) = true) →
    fetchPageGo outcomes jitterOf maxRetries a fuel =
      (none,
        (List.range' a (maxRetries + 1 - a)).map
          (fun b => waitForAttempt jitterOf (outcomes b) b)) := by
  intro fuel
  induction fuel with
  | zero =>
    intro a hfuel h1 _
    have hz : maxRetries + 1 - a = 0 := by omega
    rw [hz]
    rfl
  | succ fuel ih =>
    intro a hfuel h1 hall
    have ha : a ≤ maxRetries + 1 := by omega
    have hfail := hall a le_rfl ha
    cases houta : outcomes a with
    | success c => rw [houta] at hfail; simp [isFailAttempt] at hfail
    | rateLimited =>
      by_cases hover : a > maxRetries
      · have hz : maxRetries + 1 - a = 0 := by omega
        simp only [fetchPageGo, houta]
        rw [if_pos hover, hz]
        rfl
      · have hcount : maxRetries + 1 - a = (maxRetries - a) + 1 := by omega
        have hsub : maxRetries + 1 - (a + 1) = maxRetries - a := by omega
        simp only [fetchPageGo, houta]
        rw [if_neg hover,
          ih (a + 1) (by omega) (by omega) (fun b hb1 hb2 => hall b (by omega) hb2),
          hsub, hcount, List.range'_succ, List.map_cons, houta]
        rfl
    | otherFailure =>
      by_cases hover : a > maxRetries
      · have hz : maxRetries + 1 - a = 0 := by omega
        simp only [fetchPageGo, houta]
        rw [if_pos hover, hz]
        rfl
      · have hcount : maxRetries + 1 - a = (maxRetries - a) + 1 := by omega
        have hsub : maxRetries + 1 - (a + 1) = maxRetries - a := by omega
        simp only [fetchPageGo, houta]
        rw [if_neg hover,
          ih (a + 1) (by omega) (by omega) (fun b hb1 hb2 => hall b (by omega) hb2),
          hsub, hcount, List.range'_succ, List.map_cons, houta]
        rfl

/-- Claim C7: fetchPage returns the content of the first successful
attempt, waiting 10000 times 2 to the attempt minus one plus the jitter
after each rate-limited failure and 1000 times the attempt number after
any other failure, and propagates the error only once all maxRetries
plus one attempts have failed. -/
theorem claim_C7 (outcomes : Nat → AttemptResult) (jitterOf : Nat → Nat) (maxRetries : Nat) :
    (∀ (n : Nat) (content : Str), 1 ≤ n → n ≤ maxRetries + 1 →
      (∀ b, 1 ≤ b → b < n → isFailAttempt (outcomes b) = true) →
      outcomes n = AttemptResult.success content →
      fetchPage outcomes jitterOf maxRetries =
        (some content,
          (List.range' 1 (n - 1)).map (fun b => waitForAttempt jitterOf (outcomes b) b))) ∧
    ((∀ b, 1 ≤ b → b ≤ maxRetries + 1 → isFailAttempt (outcomes b) = true) →
      fetchPage outcomes jitterOf maxRetries =
        (none,
          (List.range' 1 maxRetries).map (fun b => waitForAttempt jitterOf (outcomes b) b))) := by
  constructor
  · intro n content h1 hn hall houtn
    exact fetchPageGo_success outcomes jitterOf maxRetries n content (maxRetries + 1) 1
      (by omega) le_rfl h1 hn hall houtn
  · intro hall
    have := fetchPageGo_allfail outcomes jitterOf maxRetries (maxRetries + 1) 1
      (by omega) le_rfl hall
    rw [fetchPage, this]
    congr 1

/-- Witness for claim C7: with an immediately successful attempt the
page is returned with no waits, at the default retry budget. -/
theorem claim_C7_witness :
    fetchPage (fun _ => AttemptResult.success ['c']) (fun _ => 0) defaultMaxRetries =
      (some ['c'],
        (List.range' 1 (1 - 1)).map
          (fun b => waitForAttempt (fun _ => 0) ((fun _ => AttemptResult.success ['c']) b) b)) :=
  (claim_C7 (fun _ => AttemptResult.success ['c']) (fun _ => 0) defaultMaxRetries).1 1 ['c']
    le_rfl (by omega) (fun b hb1 hb2 => absurd hb2 (by omega)) rfl

/-- Folding the per-term bumps equals the weighted occurrence counts. -/
theorem foldl_scoreStep (a b : ℚ) (title desc : Str) (ts : List Str) :
    ∀ s : ℚ, ts.foldl (scoreStep a b title desc) s =
      s + a * (ts.countP (fun t => subMatch t title) : ℚ)
        + b * (ts.countP (fun t => subMatch t desc) : ℚ) := by
  induction ts with
  | nil => intro s; simp
  | cons t ts ih =>
    intro s
    simp only [List.foldl_cons, List.countP_cons]
    rw [ih]
    unfold scoreStep addIf
    by_cases hp : subMatch t title <;> by_cases hq : subMatch t desc <;>
      simp [hp, hq, Nat.cast_add, Nat.cast_one] <;> ring

/-- Imperative score of one listing equals the counting formula of the
claim. -/
theorem scoreListing_eq_formula (originalQuery : Str) (enhanced : EnhancedQuery) (r : Listing) :
    scoreListing (lowerStr originalQuery) (jsSplitWs (lowerStr originalQuery))
      (enhanced.search_terms.map lowerStr) r = scoreFormula originalQuery enhanced r := by
  simp only [scoreListing, scoreFormula, countSub]
  rw [foldl_scoreStep, foldl_scoreStep]
  congr 1
  congr 1
  split_ifs <;> ring

/-- Clamping and rounding keeps the score nonnegative. -/
theorem round2_clamp01_nonneg (x : ℚ) : 0 ≤ round2 (clamp01 x) := by
  have h0 : 0 ≤ clamp01 x := le_min (by norm_num) (le_max_left 0 x)
  have hr : (0 : ℤ) ≤ round (clamp01 x * 100) := by
    rw [round_eq]
    refine Int.floor_nonneg.mpr ?_
    have : 0 ≤ clamp01 x * 100 := by positivity
    linarith
  unfold round2
  have : (0 : ℚ) ≤ ((round (clamp01 x * 100) : ℤ) : ℚ) := by exact_mod_cast hr
  positivity

/-- Clamping and rounding keeps the score at most one. -/
theorem round2_clamp01_le_one (x : ℚ) : round2 (clamp01 x) ≤ 1 := by
  have h1 : clamp01 x ≤ 1 := min_le_left _ _
  have hr : round (clamp01 x * 100) ≤ 100 := by
    rw [round_eq]
    have hlt : ⌊clamp01 x * 100 + 1 / 2⌋ < 101 := by
      refine Int.floor_lt.mpr ?_
      push_cast
      linarith
    omega
  unfold round2
  rw [div_le_one (by norm_num : (0 : ℚ) < 100)]
  exact_mod_cast hr

/-- Bounds of the claim's score formula. -/
theorem scoreFormula_bounds (originalQuery : Str) (enhanced : EnhancedQuery) (r : Listing) :
    0 ≤ scoreFormula originalQuery enhanced r ∧ scoreFormula originalQuery enhanced r ≤ 1 :=
  ⟨round2_clamp01_nonneg _, round2_clamp01_le_one _⟩

/-- Claim C1: scoreResults scores every listing by the claimed additive
formula, clamped to the unit interval and rounded to two decimal
places, and every assigned score lies between zero and one.  The map
form also witnesses determinism: the score depends only on the listing,
the original term and the enhanced phrases. -/
theorem claim_C1 (results : List Listing) (originalQuery : Str) (enhanced : EnhancedQuery) :
    scoreResults results originalQuery enhanced =
      results.map (fun r => { r with score := scoreFormula originalQuery enhanced r }) ∧
    ∀ r ∈ scoreResults results originalQuery enhanced, 0 ≤ r.score ∧ r.score ≤ 1 := by
  have hmap : scoreResults results originalQuery enhanced =
      results.map (fun r => { r with score := scoreFormula originalQuery enhanced r }) := by
    simp only [scoreResults]
    exact List.map_congr_left (fun r _ => by rw [scoreListing_eq_formula])
  refine ⟨hmap, ?_⟩
  intro r hr
  rw [hmap] at hr
  obtain ⟨r0, -, rfl⟩ := List.mem_map.mp hr
  exact scoreFormula_bounds originalQuery enhanced r0

/-- Witness for claim C1 at a concrete input. -/
theorem claim_C1_witness :
    scoreResults [] ['x'] ⟨[]⟩ =
      ([] : List Listing).map (fun r => { r with score := scoreFormula ['x'] ⟨[]⟩ r }) ∧
    ∀ r ∈ scoreResults [] ['x'] ⟨[]⟩, 0 ≤ r.score ∧ r.score ≤ 1 :=
  claim_C1 [] ['x'] ⟨[]⟩

/-- Currency normalisation never lengthens the list. -/
theorem convertCurrency_length (l : List Listing) (tc : Str) :
    (convertCurrency l tc).length ≤ l.length := by
  unfold convertCurrency
  rw [List.length_map]
  exact List.length_filter_le _ _

/-- Currency normalisation preserves the score ordering. -/
theorem convertCurrency_sorted (l : List Listing) (tc : Str) (h : List.Sorted scoreGe l) :
    List.Sorted scoreGe (convertCurrency l tc) := by
  unfold convertCurrency
  exact (List.Pairwise.sublist (List.filter_sublist l) h).map _ (fun a b hab => hab)

/-- Every listing of the normalised output carries the score of a
listing of the input. -/
theorem convertCurrency_mem_score (l : List Listing) (tc : Str) (r : Listing)
    (h : r ∈ convertCurrency l tc) : ∃ r0 ∈ l, r.score = r0.score := by
  unfold convertCurrency at h
  obtain ⟨r0, hr0, rfl⟩ := List.mem_map.mp h
  exact ⟨r0, List.mem_of_mem_filter hr0, rfl⟩

/-- Shape of every performSearchCore output: at most thirty listings,
sorted by non-increasing score, all scoring at least three tenths. -/
theorem performSearchCore_props (allResults : List Listing) (q : Str) (e : EnhancedQuery)
    (cur : Str) :
    (performSearchCore allResults q e cur).length ≤ 30 ∧
    List.Sorted scoreGe (performSearchCore allResults q e cur) ∧
    ∀ r ∈ performSearchCore allResults q e cur, (3 : ℚ) / 10 ≤ r.score := by
  unfold performSearchCore
  by_cases hemp : allResults.isEmpty
  · simp [hemp]
  · rw [if_neg hemp]
    refine ⟨?_, ?_, ?_⟩
    · calc (convertCurrency _ cur).length ≤ _ := convertCurrency_length _ _
        _ ≤ 30 := List.length_take_le _ _
    · refine convertCurrency_sorted _ _ ?_
      exact List.Pairwise.sublist (List.take_sublist _ _)
        (List.Pairwise.sublist (List.filter_sublist _) (List.sorted_insertionSort scoreGe _))
    · intro r hr
      obtain ⟨r0, hr0, hsc⟩ := convertCurrency_mem_score _ _ _ hr
      have h1 := List.take_subset _ _ hr0
      have h2 := (List.mem_filter.mp h1).2
      rw [hsc]
      exact of_decide_eq_true h2

/-- Claim C3: every successful performSearch run returns at most thirty
listings, in non-increasing score order, all scoring at least 0.30. -/
theorem claim_C3 (sources : List (Str → Except Str (List Listing))) (searchTerm : Str)
    (enhanced : EnhancedQuery) (currency : Str) (out : List Listing)
    (h : performSearchModel sources searchTerm enhanced currency = Except.ok out) :
    out.length ≤ 30 ∧ List.Sorted scoreGe out ∧ ∀ r ∈ out, (3 : ℚ) / 10 ≤ r.score := by
  have hout : performSearchCore
      (gatherResults sources ((searchTerm :: enhanced.search_terms).take 5))
      searchTerm enhanced currency = out := by
    simpa [performSearchModel] using h
  rw [← hout]
  exact performSearchCore_props _ searchTerm enhanced currency

/-- Witness for claim C3: a successful run with no sources returns the
empty sequence, which satisfies all three bounds. -/
theorem claim_C3_witness :
    ([] : List Listing).length ≤ 30 ∧ List.Sorted scoreGe ([] : List Listing) ∧
    ∀ r ∈ ([] : List Listing), (3 : ℚ) / 10 ≤ r.score :=
  claim_C3 [] ['x'] ⟨[]⟩ ['G', 'B', 'P'] [] rfl

/-- A price containing a nonempty needle is itself nonempty. -/
theorem subMatch_ne_nil (c : Char) (cs p : Str) (h : subMatch (c :: cs) p = true) : p ≠ [] := by
  intro he
  subst he
  rw [subMatch_cons_nil] at h
  exact Bool.false_ne_true h

/-- A price containing a digit has a number match. -/
theorem numberMatch_of_hasDigit (p : Str) (h : hasDigit p = true) :
    ∃ n, numberMatch p = some n := by
  induction p with
  | nil => simp [hasDigit] at h
  | cons c cs ih =>
    by_cases hc : isNumC c = true
    · simp only [numberMatch, if_pos hc]
      split
      · split <;> exact ⟨_, rfl⟩
      · exact ⟨_, rfl⟩
    · have hcs : hasDigit cs = true := by
        simp only [hasDigit, List.any_cons, Bool.or_eq_true] at h
        rcases h with h | h
        · exact absurd (by simp [isNumC, h]) hc
        · exact h
      obtain ⟨n, hn⟩ := ih hcs
      exact ⟨n, by simp only [numberMatch, if_neg hc]; exact hn⟩

/-- When the kept price already contains the target symbol both the
code and the claim leave it unchanged. -/
theorem ensure_eq_spec_of_contains (p s : Str) (hk : subMatch s p = true) (hs : s ≠ []) :
    ensureCurrencyFormat p s = currencyFormatSpec s p := by
  have hne : p ≠ [] := by
    cases s with
    | nil => exact absurd rfl hs
    | cons c cs => exact subMatch_ne_nil c cs p hk
  simp [ensureCurrencyFormat, currencyFormatSpec, hk, hne]

/-- On every listing the GBP filter keeps, the code's price rewrite
matches the claim's. -/
theorem ensure_eq_spec_gbp (p : Str)
    (hk : (subMatch ['£'] p ||
      (!subMatch ['£'] p && !subMatch ['$'] p && !subMatch ['€'] p && hasDigit p)) = true) :
    ensureCurrencyFormat p ['£'] = currencyFormatSpec ['£'] p := by
  cases hA : subMatch ['£'] p with
  | true => exact ensure_eq_spec_of_contains p ['£'] hA (by simp)
  | false =>
    rw [hA] at hk
    simp only [Bool.false_or, Bool.not_false, Bool.true_and, Bool.and_eq_true,
      Bool.not_eq_true'] at hk
    obtain ⟨⟨hS, hE⟩, hD⟩ := hk
    have hne : p ≠ [] := by
      intro he
      subst he
      simp [hasDigit] at hD
    obtain ⟨n, hn⟩ := numberMatch_of_hasDigit p hD
    have hAny : hasAnySymbol p = false := by
      simp [hasAnySymbol, hA, hS, hE]
    simp [ensureCurrencyFormat, currencyFormatSpec, hA, hn, hAny, hne]

/-- Claim C4: for the three recognised targets, currency normalisation
keeps exactly the listings of the claim's filter and rewrites each kept
price exactly as the claim states. -/
theorem claim_C4 (results : List Listing) (tc : Str)
    (h : tc = ['G', 'B', 'P'] ∨ tc = ['U', 'S', 'D'] ∨ tc = ['E', 'U', 'R']) :
    convertCurrency results tc =
      (results.filter (currencyKeepSpec tc)).map
        (fun r => { r with price := currencyFormatSpec (currencySymbol tc) r.price }) := by
  have hfilter : results.filter (keepForCurrency tc (currencySymbol tc)) =
      results.filter (currencyKeepSpec tc) := by
    refine List.filter_congr (fun r _ => ?_)
    rcases h with h | h | h <;> subst h
    · simp only [keepForCurrency, currencyKeepSpec, if_pos rfl]
      cases hA : subMatch ['£'] r.price <;> simp [hA]
    · rfl
    · rfl
  unfold convertCurrency
  rw [hfilter]
  refine List.map_congr_left (fun r hr => ?_)
  have hk := (List.mem_filter.mp hr).2
  have heq : ensureCurrencyFormat r.price (currencySymbol tc) =
      currencyFormatSpec (currencySymbol tc) r.price := by
    rcases h with h | h | h <;> subst h
    · rw [currencyKeepSpec, if_pos rfl] at hk
      exact ensure_eq_spec_gbp r.price hk
    · rw [currencyKeepSpec, if_neg (by decide)] at hk
      exact ensure_eq_spec_of_contains r.price _ hk (by decide)
    · rw [currencyKeepSpec, if_neg (by decide)] at hk
      exact ensure_eq_spec_of_contains r.price _ hk (by decide)
  rw [heq]

/-- Witness for claim C4: a single bare-number price under the GBP
target. -/
theorem claim_C4_witness :
    convertCurrency [⟨['t'], ['2', '5', '.', '0', '0'], ['l'], [], [], [], 0⟩] ['G', 'B', 'P'] =
      ([⟨['t'], ['2', '5', '.', '0', '0'], ['l'], [], [], [], 0⟩].filter
          (currencyKeepSpec ['G', 'B', 'P'])).map
        (fun r =>
          { r with price := currencyFormatSpec (currencySymbol ['G', 'B', 'P']) r.price }) :=
  claim_C4 [⟨['t'], ['2', '5', '.', '0', '0'], ['l'], [], [], [], 0⟩] ['G', 'B', 'P'] (Or.inl rfl)

end Hunta
